import Mathlib

/-!
Verification of the P25 forward-error-correction coding layer: the
shortened cyclic (16,8,5) code and the standard (15,11,3) and shortened
(10,6,3) Hamming codes, embedded shallowly from `src/coding/cyclic.rs`
and `src/coding/hamming.rs`.  Machine words are modelled as `Nat`; the
Rust widths (`u8`, `u16`, the 17-bit parent space) appear as explicit
bounds in the theorems.
-/

set_option maxRecDepth 100000

namespace P25

/-- Bit population count (Rust `count_ones`) written with structural
fuel so the kernel can evaluate it cheaply: each step counts one nibble
(four bits) and shifts it out. -/
def popCountAux : Nat → Nat → Nat
  | _, 0 => 0
  | 0, _ + 1 => 0
  | f + 1, n + 1 =>
    ((n + 1) &&& 1) + (((n + 1) >>> 1) &&& 1) + (((n + 1) >>> 2) &&& 1)
      + (((n + 1) >>> 3) &&& 1) + popCountAux f ((n + 1) >>> 4)

/-- Rust `u32::count_ones`: sixteen nibble steps exhaust any
machine-width operand, so on every value below `2 ^ 64` this is exactly
the number of set bits. -/
def popCount (n : Nat) : Nat := popCountAux 16 n

/-- Bounded checker used to evaluate exhaustive sweeps by kernel
reduction without deep recursion: `allBelow p n` holds when `p` holds
on every natural below `n`. -/
def allBelow (p : Nat → Bool) : Nat → Bool
  | 0 => true
  | k + 1 => if p k then allBelow p k else false

theorem allBelow_spec (p : Nat → Bool) :
    ∀ n, allBelow p n = true → ∀ d, d < n → p d = true := by
  intro n
  induction n with
  | zero => intro _ d hd; omega
  | succ k ih =>
    intro h d hd
    by_cases hp : p k = true
    · simp only [allBelow, hp, if_true] at h
      rcases Nat.lt_succ_iff_lt_or_eq.mp hd with h₂ | h₂
      · exact ih h d h₂
      · rw [h₂]; exact hp
    · simp only [allBelow, hp, if_false] at h
      cases h

/-- Modelled from the spec: the shared GF(2) matrix-vector multiply
macro `matrix_mul!`, whose defining file is not part of the snapshot.
The matrix is stored transposed as one row mask per output bit; each row
contributes the GF(2) dot product of the input word with that mask, the
first row feeding the most significant output bit. -/
def matrix_mul (word : Nat) (mat : List Nat) : Nat :=
  mat.foldl (fun s row => 2 * s + popCount (word &&& row) % 2) 0

/-- Modelled from the spec: the `matrix_mul_systematic!` macro, whose
defining file is not part of the snapshot.  Systematic form: the data
bits sit above the computed parity bits. -/
def matrix_mul_systematic (data : Nat) (mat : List Nat) : Nat :=
  (data <<< mat.length) ||| matrix_mul data mat

namespace cyclic

/-- Transposed generator matrix (`cyclic::GEN`). -/
def GEN : List Nat :=
  [0b00111100,
   0b10011110,
   0b01001111,
   0b00011011,
   0b10110001,
   0b11100100,
   0b11110010,
   0b01111001]

/-- Transposed parity-check matrix (`cyclic::PAR`). -/
def PAR : List Nat :=
  [0b10000000100111100,
   0b01000000010011110,
   0b00100000001001111,
   0b00010000100011011,
   0b00001000110110001,
   0b00000100111100100,
   0b00000010011110010,
   0b00000001001111001]

/-- `cyclic::encode`: 8 data bits to a 16-bit systematic codeword. -/
def encode (data : Nat) : Nat := matrix_mul_systematic data GEN

/-- `cyclic::pattern`: the error pattern associated with a syndrome. -/
def pattern (syn : Nat) : Option Nat :=
  match syn with
  | 0b00011001 => some 0b00100000000000001
  | 0b00011110 => some 0b00000000001000001
  | 0b00101001 => some 0b00010000000000001
  | 0b00110001 => some 0b00001000000000001
  | 0b00111000 => some 0b00000001000000001
  | 0b00111001 => some 0b00000000000000001
  | 0b00111011 => some 0b00000010000000001
  | 0b00111101 => some 0b00000100000000001
  | 0b01001011 => some 0b00000000000000011
  | 0b01110111 => some 0b00000000010000001
  | 0b01111001 => some 0b01000000000000001
  | 0b10100101 => some 0b00000000100000001
  | 0b10110110 => some 0b00000000000100001
  | 0b10111001 => some 0b10000000000000001
  | 0b11001000 => some 0b00000000000001001
  | 0b11011101 => some 0b00000000000000101
  | 0b11100010 => some 0b00000000000010001
  | _ => none

/-- `cyclic::rotate_17`: rotate the word right as if it were 17 bits. -/
def rotate_17 (word : Nat) : Nat := word >>> 1 ||| (word &&& 1) <<< 16

/-- One iteration of the fold inside `cyclic::decode`: syndrome, table
lookup, correction, rotation. -/
def step : Option Nat × Nat → Option Nat × Nat
  | (fixed, word) =>
    let syndrome := matrix_mul word PAR
    if syndrome = 0 then (fixed, rotate_17 word)
    else
      match pattern syndrome with
      | some pat => (some (popCount pat), rotate_17 (word ^^^ pat))
      | none => (none, rotate_17 word)

/-- `cyclic::decode`: run the 17-step rotation cycle and extract data
(the Rust `as u8` cast of `word >> 8` is the `% 256`). -/
def decode (word : Nat) : Option (Nat × Nat) :=
  match (List.range 17).foldl (fun st _ => step st) (some 0, word) with
  | (some err, w) => some ((w >>> 8) % 256, err)
  | (none, _) => none

/-- Iterated application of `step`, the shape of the 17-step fold. -/
def stepN : Nat → Option Nat × Nat → Option Nat × Nat
  | 0, st => st
  | j + 1, st => stepN j (step st)

/-- Iterated application of `rotate_17`. -/
def rotIter : Nat → Nat → Nat
  | 0, w => w
  | j + 1, w => rotIter j (rotate_17 w)

/-- The word component of the decoder state after `j` of the 17 steps,
starting from the received word. -/
def traj (w j : Nat) : Nat := (stepN j (some 0, w)).2

/-- Instrumented version of `step` that also accumulates the popcount of
every pattern XORed into the word; its other two components follow
`step` exactly. -/
def wstep : Nat × (Option Nat × Nat) → Nat × (Option Nat × Nat)
  | (acc, fixed, word) =>
    let syndrome := matrix_mul word PAR
    if syndrome = 0 then (acc, fixed, rotate_17 word)
    else
      match pattern syndrome with
      | some pat => (acc + popCount pat, some (popCount pat), rotate_17 (word ^^^ pat))
      | none => (acc, none, rotate_17 word)

/-- Iterated `wstep`. -/
def wstepN : Nat → Nat × (Option Nat × Nat) → Nat × (Option Nat × Nat)
  | 0, st => st
  | j + 1, st => wstepN j (wstep st)

/-- Total number of bits XORed into the word over the full cycle. -/
def totalWeight (w : Nat) : Nat := (wstepN 17 (0, some 0, w)).1

/-- List of the syndromes observed at each of the first `n` steps. -/
def synTrace : Nat → Option Nat × Nat → List Nat
  | 0, _ => []
  | j + 1, st => matrix_mul st.2 PAR :: synTrace j (step st)

/-- Checks that in a list of syndromes, every zero entry is followed
only by zeros. -/
def zeroChain : List Nat → Bool
  | [] => true
  | s :: rest => (decide (s ≠ 0) || rest.all (fun t => decide (t = 0))) && zeroChain rest

end cyclic

namespace hamming

/-- Rust trait method `HammingDecoder::decode`, parameterized exactly as
the trait is: parity-check rows, the syndrome-to-location table and the
data extraction function. -/
def decodeWith (par locs : List Nat) (dataf : Nat → Nat) (word : Nat) :
    Option (Nat × Nat) :=
  let s := matrix_mul word par
  if s = 0 then some (dataf word, 0)
  else
    match locs.get? s with
    | none => none
    | some loc => if loc = 0 then none else some (dataf (word ^^^ loc), 1)

namespace standard

/-- Generator patterns (`standard::GEN`). -/
def GEN : List Nat :=
  [0b11111110000,
   0b11110001110,
   0b11001101101,
   0b10101011011]

/-- Parity-check patterns (`standard::PAR`). -/
def PAR : List Nat :=
  [0b111111100001000,
   0b111100011100100,
   0b110011011010010,
   0b101010110110001]

/-- Syndrome-to-error-location table (`standard::LOCATIONS`). -/
def LOCATIONS : List Nat :=
  [0,
   0b0000000000000001,
   0b0000000000000010,
   0b0000000000010000,
   0b0000000000000100,
   0b0000000000100000,
   0b0000000001000000,
   0b0000000010000000,
   0b0000000000001000,
   0b0000000100000000,
   0b0000001000000000,
   0b0000010000000000,
   0b0000100000000000,
   0b0001000000000000,
   0b0010000000000000,
   0b0100000000000000]

/-- Rust `standard::encode` after its width assertion: 11 data bits to a
15-bit systematic codeword. -/
def encode (data : Nat) : Nat := matrix_mul_systematic data GEN

/-- Rust `standard::encode` with its `assert!(data >> 11 == 0)`
modelled: `none` is the assertion firing (panic), `some` the normal
return. -/
def encodeChecked (data : Nat) : Option Nat :=
  if data >>> 11 = 0 then some (encode data) else none

/-- Rust `StandardHamming::data`: the upper 11 bits. -/
def dataOf (word : Nat) : Nat := word >>> 4

/-- Rust `standard::decode` after its width assertion. -/
def decode (word : Nat) : Option (Nat × Nat) := decodeWith PAR LOCATIONS dataOf word

/-- Rust `standard::decode` with its `assert!(word >> 15 == 0)`
modelled: `none` is the assertion firing (panic), `some` the normal
return. -/
def decodeChecked (word : Nat) : Option (Option (Nat × Nat)) :=
  if word >>> 15 = 0 then some (decode word) else none

end standard

namespace shortened

/-- Generator patterns (`shortened::GEN`). -/
def GEN : List Nat :=
  [0b111001,
   0b110101,
   0b101110,
   0b011110]

/-- Parity-check patterns (`shortened::PAR`). -/
def PAR : List Nat :=
  [0b1110011000,
   0b1101010100,
   0b1011100010,
   0b0111100001]

/-- Syndrome-to-error-location table (`shortened::LOCATIONS`); the zero
entries mark syndromes with no valid single-bit-error position. -/
def LOCATIONS : List Nat :=
  [0,
   0b0000000000000001,
   0b0000000000000010,
   0b0000000000100000,
   0b0000000000000100,
   0,
   0,
   0b0000000001000000,
   0b0000000000001000,
   0,
   0,
   0b0000000010000000,
   0b0000000000010000,
   0b0000000100000000,
   0b0000001000000000,
   0]

/-- Rust `shortened::encode` after its width assertion: 6 data bits to a
10-bit systematic codeword. -/
def encode (data : Nat) : Nat := matrix_mul_systematic data GEN

/-- Rust `shortened::encode` with its `assert!(data >> 6 == 0)`
modelled: `none` is the assertion firing (panic), `some` the normal
return. -/
def encodeChecked (data : Nat) : Option Nat :=
  if data >>> 6 = 0 then some (encode data) else none

/-- Rust `ShortHamming::data`: `(word >> 4) as u8`, the cast being the
`% 256`. -/
def dataOf (word : Nat) : Nat := (word >>> 4) % 256

/-- Rust `shortened::decode` after its width assertion. -/
def decode (word : Nat) : Option (Nat × Nat) := decodeWith PAR LOCATIONS dataOf word

/-- Rust `shortened::decode` with its `assert!(word >> 10 == 0)`
modelled: `none` is the assertion firing (panic), `some` the normal
return. -/
def decodeChecked (word : Nat) : Option (Option (Nat × Nat)) :=
  if word >>> 10 = 0 then some (decode word) else none

end shortened

end hamming

/-! ### Arithmetic toolkit: popcount parity and GF(2) linearity -/

theorem xor_shiftRight (x y k : Nat) : (x ^^^ y) >>> k = x >>> k ^^^ y >>> k := by
  induction k with
  | zero => simp
  | succ k ih => rw [Nat.shiftRight_succ, Nat.shiftRight_succ, Nat.shiftRight_succ, ih,
      Nat.xor_div_two]

theorem popCountAux_congr (n : Nat) :
    ∀ f g, n < 2 ^ (4 * f) → n < 2 ^ (4 * g) → popCountAux f n = popCountAux g n := by
  induction n using Nat.strong_induction_on with
  | _ n ih =>
    intro f g hf hg
    cases n with
    | zero => simp [popCountAux]
    | succ m =>
      cases f with
      | zero => norm_num at hf
      | succ f₂ =>
        cases g with
        | zero => norm_num at hg
        | succ g₂ =>
          show _ + popCountAux f₂ ((m + 1) >>> 4) = _ + popCountAux g₂ ((m + 1) >>> 4)
          have hdiv : (m + 1) >>> 4 = (m + 1) / 16 := by
            rw [Nat.shiftRight_eq_div_pow]
          have hpf : (2 : Nat) ^ (4 * (f₂ + 1)) = 16 * 2 ^ (4 * f₂) := by
            rw [show 4 * (f₂ + 1) = 4 + 4 * f₂ by ring, Nat.pow_add]
          have hpg : (2 : Nat) ^ (4 * (g₂ + 1)) = 16 * 2 ^ (4 * g₂) := by
            rw [show 4 * (g₂ + 1) = 4 + 4 * g₂ by ring, Nat.pow_add]
          have h := ih ((m + 1) / 16) (by omega) f₂ g₂ (by omega) (by omega)
          rw [hdiv, h]

theorem popCount_rec (n : Nat) (hn : n < 2 ^ 32) :
    popCount n = (n &&& 1) + ((n >>> 1) &&& 1) + ((n >>> 2) &&& 1) + ((n >>> 3) &&& 1)
      + popCount (n >>> 4) := by
  cases n with
  | zero => decide
  | succ m =>
    have h1 : popCountAux 16 (m + 1)
        = ((m + 1) &&& 1) + (((m + 1) >>> 1) &&& 1) + (((m + 1) >>> 2) &&& 1)
          + (((m + 1) >>> 3) &&& 1) + popCountAux 15 ((m + 1) >>> 4) := rfl
    have hdiv : (m + 1) >>> 4 = (m + 1) / 16 := by rw [Nat.shiftRight_eq_div_pow]
    have hb : (2 : Nat) ^ 32 ≤ 2 ^ (4 * 15) := Nat.pow_le_pow_right (by omega) (by omega)
    have hb2 : (2 : Nat) ^ 32 ≤ 2 ^ (4 * 16) := Nat.pow_le_pow_right (by omega) (by omega)
    have h2 := popCountAux_congr ((m + 1) >>> 4) 15 16 (by rw [hdiv]; omega)
      (by rw [hdiv]; omega)
    show popCountAux 16 (m + 1) = _ + popCountAux 16 ((m + 1) >>> 4)
    omega

theorem bit_and_one_lt (n : Nat) : n &&& 1 < 2 := by
  rw [Nat.and_one_is_mod]
  exact Nat.mod_lt _ (by omega)

theorem bits_xor_eq_add_mod (x y : Nat) (hx : x < 2) (hy : y < 2) :
    x ^^^ y = (x + y) % 2 := by
  interval_cases x <;> interval_cases y <;> rfl

theorem xor_bit_mod_two (a b i : Nat) :
    ((a ^^^ b) >>> i) &&& 1 = (((a >>> i) &&& 1) + ((b >>> i) &&& 1)) % 2 := by
  rw [xor_shiftRight, Nat.and_xor_distrib_right]
  exact bits_xor_eq_add_mod _ _ (bit_and_one_lt _) (bit_and_one_lt _)

theorem mod_two_xor (a b : Nat) : (a ^^^ b) % 2 = (a % 2 + b % 2) % 2 := by
  rw [← Nat.and_one_is_mod (a ^^^ b), Nat.and_xor_distrib_right,
    Nat.and_one_is_mod a, Nat.and_one_is_mod b]
  rcases Nat.mod_two_eq_zero_or_one a with h | h <;>
    rcases Nat.mod_two_eq_zero_or_one b with h₂ | h₂ <;> rw [h, h₂] <;> rfl

theorem popCount_xor_parity (a : Nat) :
    ∀ b, a < 2 ^ 32 → b < 2 ^ 32 →
      popCount (a ^^^ b) % 2 = (popCount a + popCount b) % 2 := by
  induction a using Nat.strong_induction_on with
  | _ a ih =>
    intro b ha32 hb32
    by_cases ha : a = 0
    · subst ha
      rw [Nat.zero_xor]
      simp [popCount, popCountAux]
    · rw [popCount_rec (a ^^^ b) (Nat.xor_lt_two_pow ha32 hb32), popCount_rec a ha32,
        popCount_rec b hb32]
      have hsh : (a ^^^ b) >>> 4 = a >>> 4 ^^^ b >>> 4 := xor_shiftRight a b 4
      have hdiv : ∀ x : Nat, x >>> 4 = x / 16 := fun x => by
        rw [Nat.shiftRight_eq_div_pow]
      have h₁ : popCount (a >>> 4 ^^^ b >>> 4) % 2
          = (popCount (a >>> 4) + popCount (b >>> 4)) % 2 := by
        rw [hdiv a, hdiv b]
        exact ih (a / 16) (by omega) (b / 16) (by omega) (by omega)
      rw [hsh]
      have e1 := xor_bit_mod_two a b 1
      have e2 := xor_bit_mod_two a b 2
      have e3 := xor_bit_mod_two a b 3
      have l0 := bit_and_one_lt a
      have l1 := bit_and_one_lt (a >>> 1)
      have l2 := bit_and_one_lt (a >>> 2)
      have l3 := bit_and_one_lt (a >>> 3)
      have m0 := bit_and_one_lt b
      have m1 := bit_and_one_lt (b >>> 1)
      have m2 := bit_and_one_lt (b >>> 2)
      have m3 := bit_and_one_lt (b >>> 3)
      have hx0 : (a ^^^ b) &&& 1 = ((a &&& 1) + (b &&& 1)) % 2 := by
        have := xor_bit_mod_two a b 0
        rwa [Nat.shiftRight_zero, Nat.shiftRight_zero, Nat.shiftRight_zero] at this
      omega

theorem matrix_mul_acc (mat : List Nat) (w : Nat) :
    ∀ s, mat.foldl (fun s row => 2 * s + popCount (w &&& row) % 2) s
      = s * 2 ^ mat.length + matrix_mul w mat := by
  induction mat with
  | nil => intro s; simp [matrix_mul]
  | cons r rs ih =>
    intro s
    have h₁ := ih (2 * s + popCount (w &&& r) % 2)
    have h₂ := ih (popCount (w &&& r) % 2)
    have hm : matrix_mul w (r :: rs)
        = rs.foldl (fun s row => 2 * s + popCount (w &&& row) % 2)
            (2 * 0 + popCount (w &&& r) % 2) := rfl
    simp only [List.foldl_cons, List.length_cons, hm, Nat.mul_zero, Nat.zero_add] at h₁ h₂ ⊢
    rw [h₁, h₂, Nat.pow_succ]
    ring

theorem matrix_mul_cons (w r : Nat) (rs : List Nat) :
    matrix_mul w (r :: rs) = (popCount (w &&& r) % 2) * 2 ^ rs.length + matrix_mul w rs := by
  have hm : matrix_mul w (r :: rs)
      = rs.foldl (fun s row => 2 * s + popCount (w &&& row) % 2)
          (2 * 0 + popCount (w &&& r) % 2) := rfl
  rw [hm, matrix_mul_acc]
  simp only [Nat.mul_zero, Nat.zero_add]

theorem matrix_mul_lt (w : Nat) (mat : List Nat) : matrix_mul w mat < 2 ^ mat.length := by
  induction mat with
  | nil => simp [matrix_mul]
  | cons r rs ih =>
    rw [matrix_mul_cons, List.length_cons, Nat.pow_succ]
    have hb : popCount (w &&& r) % 2 < 2 := Nat.mod_lt _ (by omega)
    nlinarith [ih]

theorem hi_lo_xor (n u v a b : Nat) (hu : u < 2 ^ n) (hv : v < 2 ^ n) :
    (a * 2 ^ n + u) ^^^ (b * 2 ^ n + v) = (a ^^^ b) * 2 ^ n + (u ^^^ v) := by
  rw [Nat.mul_comm a, Nat.mul_comm b, Nat.mul_comm (a ^^^ b)]
  apply Nat.eq_of_testBit_eq
  intro j
  rw [Nat.testBit_xor, Nat.testBit_mul_pow_two_add a hu j, Nat.testBit_mul_pow_two_add b hv j,
    Nat.testBit_mul_pow_two_add (a ^^^ b) (Nat.xor_lt_two_pow hu hv) j]
  by_cases hj : j < n
  · simp [hj]
  · simp [hj, Nat.testBit_xor]

theorem xor_two_pow_add (k r : Nat) (hr : r < 2 ^ k) : (2 ^ k) ^^^ r = 2 ^ k + r := by
  have h := hi_lo_xor k 0 r 1 0 (Nat.pos_pow_of_pos k (by omega)) hr
  simpa using h

theorem matrix_mul_xor (x y : Nat) (mat : List Nat) (hx : x < 2 ^ 32) (hy : y < 2 ^ 32) :
    matrix_mul (x ^^^ y) mat = matrix_mul x mat ^^^ matrix_mul y mat := by
  induction mat with
  | nil => simp [matrix_mul]
  | cons r rs ih =>
    rw [matrix_mul_cons, matrix_mul_cons, matrix_mul_cons,
      hi_lo_xor rs.length _ _ _ _ (matrix_mul_lt x rs) (matrix_mul_lt y rs), ← ih]
    have hpar : popCount (x &&& r) % 2 ^^^ popCount (y &&& r) % 2
        = popCount ((x ^^^ y) &&& r) % 2 := by
      rw [bits_xor_eq_add_mod _ _ (Nat.mod_lt _ (by omega)) (Nat.mod_lt _ (by omega)),
        Nat.and_xor_distrib_right,
        popCount_xor_parity (x &&& r) (y &&& r) (lt_of_le_of_lt Nat.and_le_left hx)
          (lt_of_le_of_lt Nat.and_le_left hy)]
      omega
    rw [hpar]

theorem matrix_mul_zero (mat : List Nat) : matrix_mul 0 mat = 0 := by
  induction mat with
  | nil => rfl
  | cons r rs ih =>
    rw [matrix_mul_cons, Nat.zero_and, ih]
    simp [popCount, popCountAux]

theorem shiftLeft_or_eq_add (a b n : Nat) (hb : b < 2 ^ n) :
    (a <<< n) ||| b = a * 2 ^ n + b := by
  rw [Nat.mul_comm]
  apply Nat.eq_of_testBit_eq
  intro j
  rw [Nat.testBit_or, Nat.testBit_mul_pow_two_add a hb j, Nat.testBit_shiftLeft]
  by_cases hj : j < n
  · have hd : decide (n ≤ j) = false := by rw [decide_eq_false_iff_not]; omega
    simp [hj, hd]
  · have hd : decide (n ≤ j) = true := by rw [decide_eq_true_eq]; omega
    have hbj : b.testBit j = false :=
      Nat.testBit_lt_two_pow (lt_of_lt_of_le hb (Nat.pow_le_pow_right (by omega) (by omega)))
    simp [hj, hd, hbj]

theorem matrix_mul_systematic_eq (d : Nat) (mat : List Nat) :
    matrix_mul_systematic d mat = d * 2 ^ mat.length + matrix_mul d mat := by
  unfold matrix_mul_systematic
  exact shiftLeft_or_eq_add d (matrix_mul d mat) mat.length (matrix_mul_lt d mat)

theorem matrix_mul_systematic_zero (mat : List Nat) : matrix_mul_systematic 0 mat = 0 := by
  rw [matrix_mul_systematic_eq, matrix_mul_zero]
  simp

theorem matrix_mul_systematic_shiftRight (d : Nat) (mat : List Nat) :
    matrix_mul_systematic d mat >>> mat.length = d := by
  rw [matrix_mul_systematic_eq, Nat.shiftRight_eq_div_pow, Nat.mul_comm,
    Nat.mul_add_div (Nat.pos_pow_of_pos _ (by omega)),
    Nat.div_eq_of_lt (matrix_mul_lt d mat)]
  omega

theorem matrix_mul_systematic_lt (d k : Nat) (mat : List Nat) (hd : d < 2 ^ k) :
    matrix_mul_systematic d mat < 2 ^ (k + mat.length) := by
  rw [matrix_mul_systematic_eq, Nat.pow_add]
  have hm := matrix_mul_lt d mat
  calc d * 2 ^ mat.length + matrix_mul d mat
      < (d + 1) * 2 ^ mat.length := by nlinarith
    _ ≤ 2 ^ k * 2 ^ mat.length := Nat.mul_le_mul_right _ (by omega)

theorem matrix_mul_systematic_xor (a b : Nat) (mat : List Nat)
    (ha : a < 2 ^ 32) (hb : b < 2 ^ 32) :
    matrix_mul_systematic (a ^^^ b) mat
      = matrix_mul_systematic a mat ^^^ matrix_mul_systematic b mat := by
  rw [matrix_mul_systematic_eq, matrix_mul_systematic_eq, matrix_mul_systematic_eq,
    matrix_mul_xor a b mat ha hb,
    hi_lo_xor mat.length (matrix_mul a mat) (matrix_mul b mat) a b
      (matrix_mul_lt a mat) (matrix_mul_lt b mat)]

theorem syn_zero_of_basis (gen par : List Nat) (k : Nat) (hk : k + gen.length ≤ 32)
    (hbasis : ∀ j, j < k → matrix_mul (matrix_mul_systematic (2 ^ j) gen) par = 0) :
    ∀ d, d < 2 ^ k → matrix_mul (matrix_mul_systematic d gen) par = 0 := by
  have hkk : (2 : Nat) ^ k ≤ 2 ^ 32 := Nat.pow_le_pow_right (by omega) (by omega)
  have hsys32 : ∀ x, x < 2 ^ k → matrix_mul_systematic x gen < 2 ^ 32 := fun x hx =>
    lt_of_lt_of_le (matrix_mul_systematic_lt x k gen hx)
      (Nat.pow_le_pow_right (by omega) hk)
  intro d
  induction d using Nat.strong_induction_on with
  | _ d ih =>
    intro hd
    by_cases h0 : d = 0
    · subst h0
      rw [matrix_mul_systematic_zero, matrix_mul_zero]
    · have hlog_lt : d.log2 < k := (Nat.log2_lt h0).mpr hd
      have h2k : 2 ^ d.log2 ≤ d := (Nat.le_log2 h0).mp (Nat.le_refl _)
      have hup : d < 2 ^ (d.log2 + 1) := (Nat.log2_lt h0).mp (Nat.lt_succ_self _)
      have hpow : (2 : Nat) ^ (d.log2 + 1) = 2 * 2 ^ d.log2 := by
        rw [Nat.pow_succ]
        ring
      have hr : d - 2 ^ d.log2 < 2 ^ d.log2 := by omega
      have hsplit : d = 2 ^ d.log2 ^^^ (d - 2 ^ d.log2) := by
        rw [xor_two_pow_add _ _ hr]
        omega
      have hlb : (2 : Nat) ^ d.log2 < 2 ^ k := lt_of_le_of_lt h2k hd
      rw [hsplit,
        matrix_mul_systematic_xor _ _ gen (lt_of_lt_of_le hlb hkk)
          (lt_of_lt_of_le (by omega : d - 2 ^ d.log2 < 2 ^ k) hkk),
        matrix_mul_xor _ _ par (hsys32 _ hlb) (hsys32 _ (by omega)),
        hbasis d.log2 hlog_lt, ih (d - 2 ^ d.log2) (by omega) (by omega)]
      decide

namespace cyclic

theorem rotate_17_eq (w : Nat) (hw : w < 2 ^ 17) :
    rotate_17 w = (w % 2) * 2 ^ 16 + w / 2 := by
  have h1 : w >>> 1 = w / 2 := by rw [Nat.shiftRight_eq_div_pow]
  have h2 : w / 2 < 2 ^ 16 := by omega
  rw [rotate_17, Nat.and_one_is_mod, h1, Nat.lor_comm, shiftLeft_or_eq_add _ _ _ h2]

theorem rotate_17_lt (w : Nat) (hw : w < 2 ^ 17) : rotate_17 w < 2 ^ 17 := by
  rw [rotate_17_eq w hw]
  have : w % 2 < 2 := Nat.mod_lt _ (by omega)
  omega

theorem rotate_17_xor (x y : Nat) (hx : x < 2 ^ 17) (hy : y < 2 ^ 17) :
    rotate_17 (x ^^^ y) = rotate_17 x ^^^ rotate_17 y := by
  rw [rotate_17_eq x hx, rotate_17_eq y hy, rotate_17_eq _ (Nat.xor_lt_two_pow hx hy),
    hi_lo_xor 16 (x / 2) (y / 2) (x % 2) (y % 2) (by omega) (by omega),
    bits_xor_eq_add_mod (x % 2) (y % 2) (Nat.mod_lt _ (by omega)) (Nat.mod_lt _ (by omega)),
    ← Nat.xor_div_two, ← mod_two_xor]

theorem rotIter_add (a b w : Nat) : rotIter (a + b) w = rotIter b (rotIter a w) := by
  induction a generalizing w with
  | zero => rw [Nat.zero_add]; rfl
  | succ a ih =>
    have h : a + 1 + b = (a + b) + 1 := by omega
    rw [h]
    show rotIter (a + b) (rotate_17 w) = _
    rw [ih]
    rfl

theorem rotIter_mod (w : Nat) (hw : rotIter 17 w = w) (i : Nat) :
    rotIter i w = rotIter (i % 17) w := by
  induction i using Nat.strong_induction_on with
  | _ i ih =>
    by_cases hi : i < 17
    · rw [Nat.mod_eq_of_lt hi]
    · have h : i = 17 + (i - 17) := by omega
      rw [h, rotIter_add, hw, ih (i - 17) (by omega)]
      congr 1
      omega

theorem rotIter_lt (j w : Nat) (hw : w < 2 ^ 17) : rotIter j w < 2 ^ 17 := by
  induction j generalizing w with
  | zero => exact hw
  | succ j ih => exact ih _ (rotate_17_lt w hw)

theorem rotIter_zero : ∀ i, rotIter i 0 = 0
  | 0 => rfl
  | i + 1 => rotIter_zero i

theorem rotIter_xor (i : Nat) :
    ∀ x y, x < 2 ^ 17 → y < 2 ^ 17 →
      rotIter i (x ^^^ y) = rotIter i x ^^^ rotIter i y := by
  induction i with
  | zero => intro x y _ _; rfl
  | succ i ih =>
    intro x y hx hy
    show rotIter i (rotate_17 (x ^^^ y)) = _
    rw [rotate_17_xor x y hx hy]
    exact ih _ _ (rotate_17_lt x hx) (rotate_17_lt y hy)

theorem rotate_17_testBit (w : Nat) (hw : w < 2 ^ 17) (i : Nat) (hi : i < 17) :
    (rotate_17 w).testBit i = w.testBit ((i + 1) % 17) := by
  rw [rotate_17, Nat.testBit_or, Nat.testBit_shiftRight, Nat.testBit_shiftLeft]
  by_cases h16 : i < 16
  · have hd : decide (16 ≤ i) = false := by rw [decide_eq_false_iff_not]; omega
    have hmod : (i + 1) % 17 = i + 1 := by omega
    rw [hd, hmod, Nat.add_comm 1 i]
    simp
  · have hi16 : i = 16 := by omega
    subst hi16
    have h17 : w.testBit 17 = false := Nat.testBit_lt_two_pow hw
    have h117 : (1 : Nat) + 16 = 17 := rfl
    rw [h117, h17]
    simp [Nat.testBit_and]

theorem rotIter_testBit (j : Nat) :
    ∀ w, w < 2 ^ 17 → ∀ i, i < 17 →
      (rotIter j w).testBit i = w.testBit ((i + j) % 17) := by
  induction j with
  | zero =>
    intro w hw i hi
    rw [Nat.add_zero, Nat.mod_eq_of_lt hi]
    rfl
  | succ j ih =>
    intro w hw i hi
    show (rotIter j (rotate_17 w)).testBit i = _
    rw [ih (rotate_17 w) (rotate_17_lt w hw) i hi,
      rotate_17_testBit w hw ((i + j) % 17) (Nat.mod_lt _ (by omega))]
    congr 1
    omega

theorem rotIter_17_id (w : Nat) (hw : w < 2 ^ 17) : rotIter 17 w = w := by
  apply Nat.eq_of_testBit_eq
  intro i
  by_cases hi : i < 17
  · rw [rotIter_testBit 17 w hw i hi]
    congr 1
    omega
  · have hub : (2 : Nat) ^ 17 ≤ 2 ^ i := Nat.pow_le_pow_right (by omega) (by omega)
    rw [Nat.testBit_lt_two_pow (lt_of_lt_of_le (rotIter_lt 17 w hw) hub),
      Nat.testBit_lt_two_pow (lt_of_lt_of_le hw hub)]

theorem pattern_lt (s p : Nat) (h : pattern s = some p) : p < 2 ^ 17 := by
  unfold pattern at h
  split at h <;> injection h <;> omega

theorem pattern_bound (s p : Nat) (h : pattern s = some p) : s < 256 := by
  unfold pattern at h
  split at h <;> first | omega | injection h

theorem step_lt (fx : Option Nat) (w : Nat) (h : w < 2 ^ 17) : (step (fx, w)).2 < 2 ^ 17 := by
  by_cases hs : matrix_mul w PAR = 0
  · have hst : step (fx, w) = (fx, rotate_17 w) := by simp only [step, hs, if_true]
    rw [hst]
    exact rotate_17_lt w h
  · cases hpat : pattern (matrix_mul w PAR) with
    | some pat =>
      have hst : step (fx, w) = (some (popCount pat), rotate_17 (w ^^^ pat)) := by
        simp only [step, hs, if_false, hpat]
      rw [hst]
      exact rotate_17_lt _ (Nat.xor_lt_two_pow h (pattern_lt _ _ hpat))
    | none =>
      have hst : step (fx, w) = (none, rotate_17 w) := by
        simp only [step, hs, if_false, hpat]
      rw [hst]
      exact rotate_17_lt w h

theorem stepN_lt (j : Nat) : ∀ fx w, w < 2 ^ 17 → (stepN j (fx, w)).2 < 2 ^ 17 := by
  induction j with
  | zero => intro fx w h; exact h
  | succ j ih =>
    intro fx w h
    show (stepN j (step (fx, w))).2 < 2 ^ 17
    rcases hst : step (fx, w) with ⟨fx₂, w₂⟩
    have h₂ : w₂ < 2 ^ 17 := by
      have h₃ := step_lt fx w h
      rw [hst] at h₃
      exact h₃
    exact ih fx₂ w₂ h₂

theorem wstep_proj (a : Nat) (st : Option Nat × Nat) : (wstep (a, st)).2 = step st := by
  obtain ⟨fx, w⟩ := st
  show (wstep (a, fx, w)).2 = step (fx, w)
  simp only [wstep, step]
  split
  · rfl
  · split <;> rfl

theorem wstepN_proj (n : Nat) :
    ∀ (a : Nat) (st : Option Nat × Nat), (wstepN n (a, st)).2 = stepN n st := by
  induction n with
  | zero => intro a st; rfl
  | succ n ih =>
    intro a st
    show (wstepN n (wstep (a, st))).2 = stepN n (step st)
    have h := wstep_proj a st
    rcases hw : wstep (a, st) with ⟨a₂, st₂⟩
    rw [hw] at h
    have h₂ : st₂ = step st := h
    rw [h₂]
    exact ih a₂ (step st)

theorem stepN_out (n : Nat) : ∀ st, stepN (n + 1) st = step (stepN n st) := by
  induction n with
  | zero => intro st; rfl
  | succ n ih => intro st; exact ih (step st)

theorem foldl_step_eq (n : Nat) :
    ∀ st : Option Nat × Nat, (List.range n).foldl (fun s _ => step s) st = stepN n st := by
  induction n with
  | zero => intro st; rfl
  | succ n ih =>
    intro st
    rw [List.range_succ, List.foldl_append, ih]
    exact (stepN_out n st).symm

theorem decode_stepN (w : Nat) :
    decode w = match stepN 17 (some 0, w) with
      | (some err, v) => some ((v >>> 8) % 256, err)
      | (none, _) => none := by
  unfold decode
  rw [foldl_step_eq]

theorem wstepN_split (j : Nat) :
    ∀ (c v a : Nat) (fx : Option Nat), c < 2 ^ 17 → v < 2 ^ 17 →
    (∀ i, matrix_mul (rotIter i c) PAR = 0) →
    wstepN j (a, fx, c ^^^ v)
      = ((wstepN j (a, fx, v)).1, (wstepN j (a, fx, v)).2.1,
          rotIter j c ^^^ (wstepN j (a, fx, v)).2.2) := by
  induction j with
  | zero => intro c v a fx hc hv hsyn; rfl
  | succ j ih =>
    intro c v a fx hc hv hsyn
    have hc0 : matrix_mul c PAR = 0 := hsyn 0
    have hsynxor : matrix_mul (c ^^^ v) PAR = matrix_mul v PAR := by
      rw [matrix_mul_xor c v PAR (lt_trans hc (by norm_num)) (lt_trans hv (by norm_num)),
        hc0, Nat.zero_xor]
    have hsucc : ∀ i, matrix_mul (rotIter i (rotate_17 c)) PAR = 0 := fun i => hsyn (i + 1)
    show wstepN j (wstep (a, fx, c ^^^ v)) = _
    by_cases hs : matrix_mul v PAR = 0
    · have hstep : wstep (a, fx, c ^^^ v) = (a, fx, rotate_17 (c ^^^ v)) := by
        simp only [wstep, hsynxor, hs, if_true]
      have hstepv : wstep (a, fx, v) = (a, fx, rotate_17 v) := by
        simp only [wstep, hs, if_true]
      have hv1 : wstepN (j + 1) (a, fx, v) = wstepN j (a, fx, rotate_17 v) := by
        show wstepN j (wstep (a, fx, v)) = _
        rw [hstepv]
      rw [hstep, rotate_17_xor c v hc hv, hv1,
        ih (rotate_17 c) (rotate_17 v) a fx (rotate_17_lt c hc) (rotate_17_lt v hv) hsucc]
      rfl
    · cases hpat : pattern (matrix_mul v PAR) with
      | some pat =>
        have hplt : pat < 2 ^ 17 := pattern_lt _ _ hpat
        have hvp : v ^^^ pat < 2 ^ 17 := Nat.xor_lt_two_pow hv hplt
        have hstep : wstep (a, fx, c ^^^ v)
            = (a + popCount pat, some (popCount pat), rotate_17 ((c ^^^ v) ^^^ pat)) := by
          simp only [wstep, hsynxor, hs, if_false, hpat]
        have hstepv : wstep (a, fx, v)
            = (a + popCount pat, some (popCount pat), rotate_17 (v ^^^ pat)) := by
          simp only [wstep, hs, if_false, hpat]
        have hv1 : wstepN (j + 1) (a, fx, v)
            = wstepN j (a + popCount pat, some (popCount pat), rotate_17 (v ^^^ pat)) := by
          show wstepN j (wstep (a, fx, v)) = _
          rw [hstepv]
        rw [hstep, Nat.xor_assoc, rotate_17_xor c (v ^^^ pat) hc hvp, hv1,
          ih (rotate_17 c) (rotate_17 (v ^^^ pat)) (a + popCount pat) (some (popCount pat))
            (rotate_17_lt c hc) (rotate_17_lt _ hvp) hsucc]
        rfl
      | none =>
        have hstep : wstep (a, fx, c ^^^ v) = (a, none, rotate_17 (c ^^^ v)) := by
          simp only [wstep, hsynxor, hs, if_false, hpat]
        have hstepv : wstep (a, fx, v) = (a, none, rotate_17 v) := by
          simp only [wstep, hs, if_false, hpat]
        have hv1 : wstepN (j + 1) (a, fx, v) = wstepN j (a, none, rotate_17 v) := by
          show wstepN j (wstep (a, fx, v)) = _
          rw [hstepv]
        rw [hstep, rotate_17_xor c v hc hv, hv1,
          ih (rotate_17 c) (rotate_17 v) a none (rotate_17_lt c hc) (rotate_17_lt v hv) hsucc]
        rfl

theorem stepN_split (j c v : Nat) (fx : Option Nat) (hc : c < 2 ^ 17) (hv : v < 2 ^ 17)
    (hsyn : ∀ i, matrix_mul (rotIter i c) PAR = 0) :
    stepN j (fx, c ^^^ v) = ((stepN j (fx, v)).1, rotIter j c ^^^ (stepN j (fx, v)).2) := by
  have h := wstepN_split j c v 0 fx hc hv hsyn
  have p1 := wstepN_proj j 0 (fx, c ^^^ v)
  have p2 := wstepN_proj j 0 (fx, v)
  rw [← p1, ← p2, h]

theorem encode_eq (d : Nat) : encode d = d * 256 + matrix_mul d GEN :=
  matrix_mul_systematic_eq d GEN

theorem encode_lt16 (d : Nat) (hd : d < 256) : encode d < 2 ^ 16 :=
  matrix_mul_systematic_lt d 8 GEN hd

theorem encode_shift (d : Nat) : encode d >>> 8 = d :=
  matrix_mul_systematic_shiftRight d GEN

theorem encode_xor (a b : Nat) (ha : a < 2 ^ 32) (hb : b < 2 ^ 32) :
    encode (a ^^^ b) = encode a ^^^ encode b :=
  matrix_mul_systematic_xor a b GEN ha hb

theorem encode_facts (d : Nat) (hd : d < 256) :
    encode d < 2 ^ 16 ∧ (encode d) >>> 8 = d ∧ rotIter 17 (encode d) = encode d :=
  ⟨encode_lt16 d hd, encode_shift d,
    rotIter_17_id _ (lt_trans (encode_lt16 d hd) (by norm_num))⟩

theorem cyc_basis_bool :
    allBelow (fun k => allBelow (fun i =>
      matrix_mul (rotIter i (encode (2 ^ k))) PAR == 0) 17) 8 = true := by decide

theorem encode_rot_syn_lt (d : Nat) :
    ∀ _ : d < 256, ∀ i, i < 17 → matrix_mul (rotIter i (encode d)) PAR = 0 := by
  induction d using Nat.strong_induction_on with
  | _ d ih =>
    intro hd i hi
    by_cases h0 : d = 0
    · subst h0
      have he : encode 0 = 0 := by
        rw [encode_eq, matrix_mul_zero]
      rw [he, rotIter_zero i, matrix_mul_zero]
    · have hd8 : d < 2 ^ 8 := hd
      have hlog_lt : d.log2 < 8 := (Nat.log2_lt h0).mpr hd8
      have h2k : 2 ^ d.log2 ≤ d := (Nat.le_log2 h0).mp (Nat.le_refl _)
      have hup : d < 2 ^ (d.log2 + 1) := (Nat.log2_lt h0).mp (Nat.lt_succ_self _)
      have hpow : (2 : Nat) ^ (d.log2 + 1) = 2 * 2 ^ d.log2 := by
        rw [Nat.pow_succ]
        ring
      have hr : d - 2 ^ d.log2 < 2 ^ d.log2 := by omega
      have hsplit : d = 2 ^ d.log2 ^^^ (d - 2 ^ d.log2) := by
        rw [xor_two_pow_add _ _ hr]
        omega
      have hlt8 : (2 : Nat) ^ d.log2 < 256 := lt_of_le_of_lt h2k hd
      have hb1 : (2 : Nat) ^ d.log2 < 2 ^ 32 := by omega
      have hb2 : d - 2 ^ d.log2 < 2 ^ 32 := by omega
      have he1 : encode (2 ^ d.log2) < 2 ^ 17 :=
        lt_trans (encode_lt16 _ hlt8) (by norm_num)
      have he2 : encode (d - 2 ^ d.log2) < 2 ^ 17 :=
        lt_trans (encode_lt16 _ (by omega)) (by norm_num)
      have hbase := eq_of_beq
        (allBelow_spec _ 17 (allBelow_spec _ 8 cyc_basis_bool d.log2 hlog_lt) i hi)
      rw [hsplit, encode_xor _ _ hb1 hb2, rotIter_xor i _ _ he1 he2,
        matrix_mul_xor _ _ PAR (lt_trans (rotIter_lt i _ he1) (by norm_num))
          (lt_trans (rotIter_lt i _ he2) (by norm_num)),
        hbase, ih (d - 2 ^ d.log2) (by omega) (by omega) i hi]
      decide

theorem encode_rot_syn (d : Nat) (hd : d < 256) (i : Nat) :
    matrix_mul (rotIter i (encode d)) PAR = 0 := by
  rw [rotIter_mod _ (encode_facts d hd).2.2 i]
  exact encode_rot_syn_lt d hd (i % 17) (Nat.mod_lt _ (by omega))

theorem encode_syn_zero (d : Nat) (hd : d < 256) : matrix_mul (encode d) PAR = 0 :=
  encode_rot_syn d hd 0

theorem encode_lt_17 (d : Nat) (hd : d < 256) : encode d < 2 ^ 17 :=
  lt_trans (encode_facts d hd).1 (by norm_num)

theorem decode_split (d v : Nat) (hd : d < 256) (hv : v < 2 ^ 17) :
    decode (encode d ^^^ v)
      = match stepN 17 (some 0, v) with
        | (some err, V) => some (((encode d ^^^ V) >>> 8) % 256, err)
        | (none, _) => none := by
  rw [decode_stepN,
    stepN_split 17 (encode d) v (some 0) (encode_lt_17 d hd) hv (encode_rot_syn d hd),
    (encode_facts d hd).2.2]
  rcases h17 : stepN 17 (some 0, v) with ⟨fx, V⟩
  cases fx <;> rfl

theorem decode_of_run (d v err : Nat) (hd : d < 256) (hv : v < 2 ^ 17)
    (hrun : stepN 17 (some 0, v) = (some err, 0)) :
    decode (encode d ^^^ v) = some (d, err) := by
  rw [decode_split d v hd hv, hrun]
  show some (((encode d ^^^ 0) >>> 8) % 256, err) = some (d, err)
  rw [Nat.xor_zero, (encode_facts d hd).2.1, Nat.mod_eq_of_lt hd]

end cyclic

namespace hamming

theorem decodeWith_zero (par locs : List Nat) (dataf : Nat → Nat) (word : Nat)
    (h : matrix_mul word par = 0) :
    decodeWith par locs dataf word = some (dataf word, 0) := by
  simp [decodeWith, h]

theorem decodeWith_corr (par locs : List Nat) (dataf : Nat → Nat) (word loc : Nat)
    (h : matrix_mul word par ≠ 0) (hloc : locs.get? (matrix_mul word par) = some loc)
    (hne : loc ≠ 0) :
    decodeWith par locs dataf word = some (dataf (word ^^^ loc), 1) := by
  rw [List.get?_eq_getElem?] at hloc
  simp [decodeWith, h, hloc, hne]

theorem decodeWith_dead (par locs : List Nat) (dataf : Nat → Nat) (word : Nat)
    (h : matrix_mul word par ≠ 0) (hloc : locs.get? (matrix_mul word par) = some 0) :
    decodeWith par locs dataf word = none := by
  rw [List.get?_eq_getElem?] at hloc
  simp [decodeWith, h, hloc]

theorem syn_xor (par : List Nat) (c e : Nat) (hc : matrix_mul c par = 0)
    (hc32 : c < 2 ^ 32) (he32 : e < 2 ^ 32) :
    matrix_mul (c ^^^ e) par = matrix_mul e par := by
  rw [matrix_mul_xor c e par hc32 he32, hc, Nat.zero_xor]

theorem std_basis_bool :
    allBelow (fun j => matrix_mul (standard.encode (2 ^ j)) standard.PAR == 0) 11
      = true := by decide

theorem short_basis_bool :
    allBelow (fun j => matrix_mul (shortened.encode (2 ^ j)) shortened.PAR == 0) 6
      = true := by decide

theorem std_encode_facts (d : Nat) (hd : d < 2048) :
    matrix_mul (standard.encode d) standard.PAR = 0
      ∧ standard.encode d >>> 4 = d ∧ standard.encode d < 2 ^ 15 :=
  ⟨syn_zero_of_basis standard.GEN standard.PAR 11 (by decide)
      (fun j hj => eq_of_beq (allBelow_spec _ 11 std_basis_bool j hj)) d hd,
    matrix_mul_systematic_shiftRight d standard.GEN,
    matrix_mul_systematic_lt d 11 standard.GEN hd⟩

theorem short_encode_facts (d : Nat) (hd : d < 64) :
    matrix_mul (shortened.encode d) shortened.PAR = 0
      ∧ (shortened.encode d >>> 4) % 256 = d ∧ shortened.encode d < 2 ^ 10 :=
  ⟨syn_zero_of_basis shortened.GEN shortened.PAR 6 (by decide)
      (fun j hj => eq_of_beq (allBelow_spec _ 6 short_basis_bool j hj)) d hd,
    by
      rw [show shortened.encode d >>> 4 = d from matrix_mul_systematic_shiftRight d shortened.GEN]
      exact Nat.mod_eq_of_lt (by omega),
    matrix_mul_systematic_lt d 6 shortened.GEN hd⟩

end hamming

theorem xor_cancel_right (x e : Nat) : (x ^^^ e) ^^^ e = x := by
  rw [Nat.xor_assoc, Nat.xor_self, Nat.xor_zero]

/-! ### C1: exhaustive round-trip over each code's full data space -/

/-- C1: for every data value in each code's full data-bit space,
decoding the encoded codeword returns the original data with 0
corrected errors: all 256 bytes for the cyclic code, all 2048 11-bit
values for standard Hamming, all 64 6-bit values for shortened
Hamming. -/
theorem C1_roundtrip :
    (∀ d < 256, cyclic.decode (cyclic.encode d) = some (d, 0))
    ∧ (∀ d < 2048, hamming.standard.decode (hamming.standard.encode d) = some (d, 0))
    ∧ (∀ d < 64, hamming.shortened.decode (hamming.shortened.encode d) = some (d, 0)) := by
  refine ⟨fun d hd => ?_, fun d hd => ?_, fun d hd => ?_⟩
  · have h := cyclic.decode_of_run d 0 0 hd (by norm_num) (by decide)
    rwa [Nat.xor_zero] at h
  · have hf := hamming.std_encode_facts d hd
    rw [hamming.standard.decode, hamming.decodeWith_zero _ _ _ _ hf.1]
    show some (hamming.standard.encode d >>> 4, 0) = _
    rw [hf.2.1]
  · have hf := hamming.short_encode_facts d hd
    rw [hamming.shortened.decode, hamming.decodeWith_zero _ _ _ _ hf.1]
    show some ((hamming.shortened.encode d >>> 4) % 256, 0) = _
    rw [hf.2.1]

/-! ### C2: single-bit correction for all three codes -/

theorem cyc_single_bit_bool :
    allBelow (fun p => decide (1 <<< p < 2 ^ 17
      ∧ cyclic.stepN 17 (some 0, 1 <<< p) = (some 1, 0))) 16 = true := by decide

theorem std_single_bit_bool :
    allBelow (fun p => decide (1 <<< p ≠ 0 ∧ 1 <<< p < 2 ^ 32
      ∧ matrix_mul (1 <<< p) hamming.standard.PAR ≠ 0
      ∧ hamming.standard.LOCATIONS.get? (matrix_mul (1 <<< p) hamming.standard.PAR)
          = some (1 <<< p))) 15 = true := by decide

theorem short_single_bit_bool :
    allBelow (fun p => decide (1 <<< p ≠ 0 ∧ 1 <<< p < 2 ^ 32
      ∧ matrix_mul (1 <<< p) hamming.shortened.PAR ≠ 0
      ∧ hamming.shortened.LOCATIONS.get? (matrix_mul (1 <<< p) hamming.shortened.PAR)
          = some (1 <<< p))) 10 = true := by decide

/-- C2: flipping any single significant bit of a valid codeword decodes
back to the original data with corrected-error count 1: any of the 16
bits for the cyclic code, any of the low 15 bits for standard Hamming,
any of the low 10 bits for shortened Hamming. -/
theorem C2_single_bit :
    (∀ d < 256, ∀ p < 16, cyclic.decode (cyclic.encode d ^^^ 1 <<< p) = some (d, 1))
    ∧ (∀ d < 2048, ∀ p < 15,
        hamming.standard.decode (hamming.standard.encode d ^^^ 1 <<< p) = some (d, 1))
    ∧ (∀ d < 64, ∀ p < 10,
        hamming.shortened.decode (hamming.shortened.encode d ^^^ 1 <<< p) = some (d, 1)) := by
  refine ⟨fun d hd p hp => ?_, fun d hd p hp => ?_, fun d hd p hp => ?_⟩
  · have hb := of_decide_eq_true (allBelow_spec _ 16 cyc_single_bit_bool p hp)
    exact cyclic.decode_of_run d (1 <<< p) 1 hd hb.1 hb.2
  · have hf := hamming.std_encode_facts d hd
    have hb := of_decide_eq_true (allBelow_spec _ 15 std_single_bit_bool p hp)
    have hsyn : matrix_mul (hamming.standard.encode d ^^^ 1 <<< p) hamming.standard.PAR
        = matrix_mul (1 <<< p) hamming.standard.PAR :=
      hamming.syn_xor _ _ _ hf.1 (lt_trans hf.2.2 (by norm_num)) hb.2.1
    rw [hamming.standard.decode,
      hamming.decodeWith_corr _ _ _ _ (1 <<< p) (by rw [hsyn]; exact hb.2.2.1)
        (by rw [hsyn]; exact hb.2.2.2) hb.1,
      xor_cancel_right]
    show some (hamming.standard.encode d >>> 4, 1) = _
    rw [hf.2.1]
  · have hf := hamming.short_encode_facts d hd
    have hb := of_decide_eq_true (allBelow_spec _ 10 short_single_bit_bool p hp)
    have hsyn : matrix_mul (hamming.shortened.encode d ^^^ 1 <<< p) hamming.shortened.PAR
        = matrix_mul (1 <<< p) hamming.shortened.PAR :=
      hamming.syn_xor _ _ _ hf.1 (lt_trans hf.2.2 (by norm_num)) hb.2.1
    rw [hamming.shortened.decode,
      hamming.decodeWith_corr _ _ _ _ (1 <<< p) (by rw [hsyn]; exact hb.2.2.1)
        (by rw [hsyn]; exact hb.2.2.2) hb.1,
      xor_cancel_right]
    show some ((hamming.shortened.encode d >>> 4) % 256, 1) = _
    rw [hf.2.1]

/-! ### C3: correctable patterns of the cyclic syndrome table -/

theorem pattern_run_bool :
    allBelow (fun syn =>
      match cyclic.pattern syn with
      | some pat =>
        allBelow (fun k =>
          !decide (cyclic.rotIter k pat < 2 ^ 16)
            || decide (cyclic.stepN 17 (some 0, cyclic.rotIter k pat)
                  = (some (popCount pat), 0))) 17
      | none => true) 256 = true := by decide

/-- C3 counterexample: the syndrome table's entry for syndrome
`0b00111001` is the weight-1 pattern `0b1` (a rotation count of 0 of
itself, within the 16-bit space), and decoding a codeword XORed with it
corrects 1 bit, not 2 as the claim states for every table pattern. -/
theorem C3_counterexample :
    cyclic.pattern 0b00111001 = some 1 ∧ popCount 1 = 1
      ∧ cyclic.decode (cyclic.encode 0 ^^^ 1) = some (0, 1)
      ∧ cyclic.decode (cyclic.encode 0 ^^^ 1) ≠ some (0, 2) := by decide

/-- C3 amended: for every 8-bit data value, every pattern of the
syndrome table and every cyclic rotation of it (in the 17-bit parent
space) that fits the 16-bit word, decoding the codeword XORed with the
rotated pattern recovers the data with corrected count equal to the
pattern's weight - 2 for the sixteen weight-2 patterns, 1 for the
single weight-1 pattern; in particular the concrete scenario of data
`0b10101011` and error `0b1000000000000001` decodes to
`(0b10101011, 2)`. -/
theorem C3_patterns :
    (∀ d < 256, ∀ syn pat, cyclic.pattern syn = some pat → ∀ k < 17,
      cyclic.rotIter k pat < 2 ^ 16 →
      cyclic.decode (cyclic.encode d ^^^ cyclic.rotIter k pat) = some (d, popCount pat))
    ∧ cyclic.decode (cyclic.encode 0b10101011 ^^^ 0b1000000000000001)
        = some (0b10101011, 2) := by
  refine ⟨fun d hd syn pat hpat k hk hfit => ?_, by decide⟩
  have hrow := allBelow_spec _ 256 pattern_run_bool syn (cyclic.pattern_bound _ _ hpat)
  rw [hpat] at hrow
  have hb := allBelow_spec _ 17 hrow k hk
  rw [decide_eq_true hfit] at hb
  simp only [Bool.not_true, Bool.false_or] at hb
  exact cyclic.decode_of_run d (cyclic.rotIter k pat) (popCount pat) hd
    (lt_trans hfit (by norm_num)) (of_decide_eq_true hb)

/-! ### C4: Hamming decode case analysis -/

/-- C4: for both Hamming variants and every word of the significant
width, a zero syndrome returns the extracted data with 0 corrections; a
nonzero syndrome whose location-table entry is zero returns `none` (a
case that occurs for the shortened variant, witnessed by the last
conjunct); a nonzero syndrome with a nonzero single-bit location entry
returns the data extracted from the word XOR that location with 1
correction. -/
theorem C4_hamming_cases :
    (∀ word < 2 ^ 15,
      (matrix_mul word hamming.standard.PAR = 0 →
        hamming.standard.decode word = some (word >>> 4, 0))
      ∧ (∀ loc, matrix_mul word hamming.standard.PAR ≠ 0 →
          hamming.standard.LOCATIONS.get? (matrix_mul word hamming.standard.PAR)
            = some loc →
          (loc = 0 → hamming.standard.decode word = none)
          ∧ (loc ≠ 0 →
              hamming.standard.decode word = some ((word ^^^ loc) >>> 4, 1))))
    ∧ (∀ word < 2 ^ 10,
      (matrix_mul word hamming.shortened.PAR = 0 →
        hamming.shortened.decode word = some ((word >>> 4) % 256, 0))
      ∧ (∀ loc, matrix_mul word hamming.shortened.PAR ≠ 0 →
          hamming.shortened.LOCATIONS.get? (matrix_mul word hamming.shortened.PAR)
            = some loc →
          (loc = 0 → hamming.shortened.decode word = none)
          ∧ (loc ≠ 0 →
              hamming.shortened.decode word = some (((word ^^^ loc) >>> 4) % 256, 1))))
    ∧ (∃ w < 2 ^ 10, matrix_mul w hamming.shortened.PAR ≠ 0
        ∧ hamming.shortened.LOCATIONS.get? (matrix_mul w hamming.shortened.PAR) = some 0
        ∧ hamming.shortened.decode w = none) := by
  refine ⟨fun word hword => ⟨fun h0 => ?_, fun loc hne hloc => ⟨fun hz => ?_, fun hnz => ?_⟩⟩,
    fun word hword => ⟨fun h0 => ?_, fun loc hne hloc => ⟨fun hz => ?_, fun hnz => ?_⟩⟩,
    ⟨5, by norm_num, by decide, by decide, by decide⟩⟩
  · exact hamming.decodeWith_zero _ _ _ _ h0
  · subst hz
    exact hamming.decodeWith_dead _ _ _ _ hne hloc
  · exact hamming.decodeWith_corr _ _ _ _ loc hne hloc hnz
  · exact hamming.decodeWith_zero _ _ _ _ h0
  · subst hz
    exact hamming.decodeWith_dead _ _ _ _ hne hloc
  · exact hamming.decodeWith_corr _ _ _ _ loc hne hloc hnz

/-! ### C5 and C6: behaviour of the cyclic rotation-search cycle -/

theorem synTrace_length (n : Nat) : ∀ st, (cyclic.synTrace n st).length = n := by
  induction n with
  | zero => intro st; rfl
  | succ n ih =>
    intro st
    show (matrix_mul st.2 cyclic.PAR :: cyclic.synTrace n (cyclic.step st)).length = n + 1
    rw [List.length_cons, ih]

theorem synTrace_get (n : Nat) :
    ∀ j st, j < n →
      (cyclic.synTrace n st).get? j = some (matrix_mul (cyclic.stepN j st).2 cyclic.PAR) := by
  induction n with
  | zero => intro j st hj; omega
  | succ n ih =>
    intro j st hj
    cases j with
    | zero => rfl
    | succ j =>
      show (matrix_mul st.2 cyclic.PAR :: cyclic.synTrace n (cyclic.step st)).get? (j + 1) = _
      rw [List.get?_cons_succ]
      exact ih j (cyclic.step st) (by omega)

theorem zeroChain_spec :
    ∀ l : List Nat, cyclic.zeroChain l = true →
      ∀ j k, j ≤ k → k < l.length → l.get? j = some 0 → l.get? k = some 0 := by
  intro l
  induction l with
  | nil => intro _ j k _ hk _; simp at hk
  | cons s rest ih =>
    intro h j k hjk hk hj
    have hsplit : (decide (s ≠ 0) || rest.all (fun t => decide (t = 0))) = true
        ∧ cyclic.zeroChain rest = true := by
      have h₂ : cyclic.zeroChain (s :: rest)
          = ((decide (s ≠ 0) || rest.all (fun t => decide (t = 0)))
              && cyclic.zeroChain rest) := rfl
      rw [h₂, Bool.and_eq_true] at h
      exact h
    cases j with
    | zero =>
      have hs : s = 0 := by simpa using hj
      have hall : rest.all (fun t => decide (t = 0)) = true := by
        have hor := hsplit.1
        rw [Bool.or_eq_true] at hor
        rcases hor with h₁ | h₁
        · rw [hs] at h₁; simp at h₁
        · exact h₁
      cases k with
      | zero => exact hj
      | succ k =>
        rw [List.get?_cons_succ]
        have hk₂ : k < rest.length := by
          rw [List.length_cons] at hk; omega
        rcases hx : rest.get? k with _ | x
        · rw [List.get?_eq_none] at hx; omega
        · have hmem : x ∈ rest := List.get?_mem hx
          have hx0 : x = 0 := of_decide_eq_true (List.all_eq_true.mp hall x hmem)
          rw [hx0]
    | succ j =>
      cases k with
      | zero => omega
      | succ k =>
        rw [List.get?_cons_succ] at hj ⊢
        refine ih hsplit.2 j k (by omega) ?_ hj
        rw [List.length_cons] at hk
        omega

theorem coset_decomp (w : Nat) (hw : w < 2 ^ 16) :
    w >>> 8 < 256 ∧ (w ^^^ cyclic.encode (w >>> 8)) < 256
      ∧ w = cyclic.encode (w >>> 8) ^^^ (w ^^^ cyclic.encode (w >>> 8)) := by
  have hd : w >>> 8 < 256 := by
    rw [Nat.shiftRight_eq_div_pow]
    omega
  have hc := cyclic.encode_facts (w >>> 8) hd
  have hv0 : (w ^^^ cyclic.encode (w >>> 8)) >>> 8 = 0 := by
    rw [xor_shiftRight, hc.2.1, Nat.xor_self]
  have hv8 : (w ^^^ cyclic.encode (w >>> 8)) < 256 := by
    rw [Nat.shiftRight_eq_div_pow] at hv0
    omega
  refine ⟨hd, hv8, ?_⟩
  rw [Nat.xor_comm w, ← Nat.xor_assoc, Nat.xor_self, Nat.zero_xor]

theorem traj_syn_split (d v : Nat) (hd : d < 256) (hv : v < 2 ^ 17) (j : Nat) :
    matrix_mul (cyclic.traj (cyclic.encode d ^^^ v) j) cyclic.PAR
      = matrix_mul (cyclic.traj v j) cyclic.PAR := by
  show matrix_mul (cyclic.stepN j (some 0, cyclic.encode d ^^^ v)).2 cyclic.PAR = _
  rw [cyclic.stepN_split j (cyclic.encode d) v (some 0) (cyclic.encode_lt_17 d hd) hv
    (cyclic.encode_rot_syn d hd)]
  show matrix_mul
      (cyclic.rotIter j (cyclic.encode d) ^^^ (cyclic.stepN j (some 0, v)).2) cyclic.PAR = _
  rw [matrix_mul_xor _ _ cyclic.PAR
      (lt_trans (cyclic.rotIter_lt j _ (cyclic.encode_lt_17 d hd)) (by norm_num))
      (lt_trans (cyclic.stepN_lt j (some 0) v hv) (by norm_num)),
    cyclic.encode_rot_syn d hd j, Nat.zero_xor]
  rfl

set_option maxHeartbeats 4000000 in
theorem vsweep_some_bool :
    allBelow (fun v =>
      (cyclic.wstepN 17 (0, some 0, v)).2.1.isSome
          == (cyclic.synTrace 17 (some 0, v)).any
              (fun s => s == 0 || (cyclic.pattern s).isSome)) 256 = true := by decide

set_option maxHeartbeats 4000000 in
theorem vsweep_chain_bool :
    allBelow (fun v => cyclic.zeroChain (cyclic.synTrace 17 (some 0, v))) 256 = true := by
  decide

set_option maxHeartbeats 4000000 in
theorem vsweep_weight_bool :
    allBelow (fun v =>
      (match cyclic.wstepN 17 (0, some 0, v) with
          | (acc, some err, _) => err == acc
          | (_, none, _) => true)) 256 = true := by decide

theorem vsweep_parts (v : Nat) (hv : v < 256) :
    ((cyclic.stepN 17 (some 0, v)).1.isSome
        = (cyclic.synTrace 17 (some 0, v)).any (fun s => s == 0 || (cyclic.pattern s).isSome))
    ∧ cyclic.zeroChain (cyclic.synTrace 17 (some 0, v)) = true
    ∧ (∀ acc err V, cyclic.wstepN 17 (0, some 0, v) = (acc, some err, V) → err = acc) := by
  have hA := allBelow_spec _ 256 vsweep_some_bool v hv
  have hB := allBelow_spec _ 256 vsweep_chain_bool v hv
  have hC := allBelow_spec _ 256 vsweep_weight_bool v hv
  have hproj := cyclic.wstepN_proj 17 0 (some 0, v)
  refine ⟨?_, hB, fun acc err V hrun => ?_⟩
  · rw [← hproj]
    exact eq_of_beq hA
  · rw [hrun] at hC
    exact eq_of_beq hC

theorem trace_any_iff (v : Nat) :
    ((cyclic.synTrace 17 (some 0, v)).any
        (fun s => s == 0 || (cyclic.pattern s).isSome) = true)
      ↔ ∃ j, j < 17 ∧ (matrix_mul (cyclic.traj v j) cyclic.PAR = 0
          ∨ (cyclic.pattern (matrix_mul (cyclic.traj v j) cyclic.PAR)).isSome = true) := by
  rw [List.any_eq_true]
  constructor
  · rintro ⟨s, hmem, hp⟩
    rcases List.mem_iff_get?.mp hmem with ⟨j, hgj⟩
    have hjlen : j < 17 := by
      by_contra hge
      rw [List.get?_eq_none.mpr (by rw [synTrace_length]; omega)] at hgj
      cases hgj
    have hgj2 := synTrace_get 17 j (some 0, v) hjlen
    rw [hgj2] at hgj
    have hs : matrix_mul (cyclic.stepN j (some 0, v)).2 cyclic.PAR = s := by
      injection hgj
    refine ⟨j, hjlen, ?_⟩
    rw [show cyclic.traj v j = (cyclic.stepN j (some 0, v)).2 from rfl, hs]
    simpa using hp
  · rintro ⟨j, hj, hP⟩
    refine ⟨matrix_mul (cyclic.stepN j (some 0, v)).2 cyclic.PAR,
      List.get?_mem (synTrace_get 17 j (some 0, v) hj), ?_⟩
    rw [show cyclic.traj v j = (cyclic.stepN j (some 0, v)).2 from rfl] at hP
    simpa using hP

/-- C5: for every 16-bit received word, the cyclic decoder returns a
result exactly when some step of the 17-rotation cycle either observes
a zero syndrome or finds its nonzero syndrome among the table's
entries; otherwise (no step succeeds through the whole cycle) it
returns `none`. -/
theorem C5_decode_some_iff (w : Nat) (hw : w < 2 ^ 16) :
    (cyclic.decode w).isSome = true
      ↔ ∃ j < 17, matrix_mul (cyclic.traj w j) cyclic.PAR = 0
          ∨ (cyclic.pattern (matrix_mul (cyclic.traj w j) cyclic.PAR)).isSome = true := by
  obtain ⟨hd, hv8, hwe⟩ := coset_decomp w hw
  have hv17 : (w ^^^ cyclic.encode (w >>> 8)) < 2 ^ 17 := lt_trans hv8 (by norm_num)
  obtain ⟨hA, hB, hC⟩ := vsweep_parts (w ^^^ cyclic.encode (w >>> 8)) hv8
  rw [hwe]
  simp only [traj_syn_split (w >>> 8) (w ^^^ cyclic.encode (w >>> 8)) hd hv17]
  rw [cyclic.decode_split (w >>> 8) (w ^^^ cyclic.encode (w >>> 8)) hd hv17]
  rcases hrun : cyclic.stepN 17 (some 0, w ^^^ cyclic.encode (w >>> 8)) with ⟨fx, V⟩
  rw [hrun] at hA
  cases fx with
  | some err =>
    simp only [Option.isSome_some]
    constructor
    · intro _
      exact (trace_any_iff _).mp hA.symm
    · intro _
      trivial
  | none =>
    simp only [Option.isSome_none]
    constructor
    · intro hfalse
      cases hfalse
    · intro hex
      have := (trace_any_iff _).mpr hex
      rw [← hA] at this
      cases this

/-- C6: once a rotation step of the cyclic decoder observes a zero
syndrome, every later step of the cycle also observes a zero syndrome
(so no further correction is applied), and whenever decoding returns a
result its reported error count equals the accumulated weight of all
patterns XORed into the word during the cycle. -/
theorem C6_zero_syndrome_stability (w : Nat) (hw : w < 2 ^ 16) :
    (∀ j k, j ≤ k → k < 17 →
      matrix_mul (cyclic.traj w j) cyclic.PAR = 0 →
      matrix_mul (cyclic.traj w k) cyclic.PAR = 0)
    ∧ (∀ dat err, cyclic.decode w = some (dat, err) → err = cyclic.totalWeight w) := by
  obtain ⟨hd, hv8, hwe⟩ := coset_decomp w hw
  have hv17 : (w ^^^ cyclic.encode (w >>> 8)) < 2 ^ 17 := lt_trans hv8 (by norm_num)
  obtain ⟨hA, hB, hC⟩ := vsweep_parts (w ^^^ cyclic.encode (w >>> 8)) hv8
  constructor
  · intro j k hjk hk h0
    rw [hwe, traj_syn_split (w >>> 8) _ hd hv17] at h0 ⊢
    have hgj : (cyclic.synTrace 17 (some 0, w ^^^ cyclic.encode (w >>> 8))).get? j
        = some 0 := by
      rw [synTrace_get 17 j _ (by omega)]
      exact congrArg some h0
    have hgk := zeroChain_spec _ hB j k hjk (by rw [synTrace_length]; omega) hgj
    rw [synTrace_get 17 k _ hk] at hgk
    injection hgk with hgk2
  · intro dat err hdecode
    rw [hwe] at hdecode ⊢
    rw [cyclic.decode_split (w >>> 8) _ hd hv17] at hdecode
    rcases hrun : cyclic.stepN 17 (some 0, w ^^^ cyclic.encode (w >>> 8)) with ⟨fx, V⟩
    rw [hrun] at hdecode
    cases fx with
    | none => cases hdecode
    | some e =>
      have herr : err = e := by
        have h₂ := hdecode
        simp only [Option.some.injEq, Prod.mk.injEq] at h₂
        exact h₂.2.symm
      rcases hwrun : cyclic.wstepN 17 (0, some 0, w ^^^ cyclic.encode (w >>> 8))
        with ⟨acc, fx2, V2⟩
      have hproj := cyclic.wstepN_proj 17 0 (some 0, w ^^^ cyclic.encode (w >>> 8))
      rw [hwrun, hrun] at hproj
      have hfx2 : fx2 = some e := congrArg Prod.fst hproj
      have hsw := cyclic.wstepN_split 17 (cyclic.encode (w >>> 8)) _ 0 (some 0)
        (cyclic.encode_lt_17 _ hd) hv17 (cyclic.encode_rot_syn _ hd)
      have htw : cyclic.totalWeight
          (cyclic.encode (w >>> 8) ^^^ (w ^^^ cyclic.encode (w >>> 8))) = acc := by
        rw [cyclic.totalWeight, hsw, hwrun]
      rw [htw, herr]
      exact hC acc e V2 (by rw [hwrun, hfx2])

/-- C5 witness at a concrete 16-bit word. -/
theorem C5_decode_some_iff_witness :
    (cyclic.decode 43690).isSome = true
      ↔ ∃ j < 17, matrix_mul (cyclic.traj 43690 j) cyclic.PAR = 0
          ∨ (cyclic.pattern (matrix_mul (cyclic.traj 43690 j) cyclic.PAR)).isSome = true :=
  C5_decode_some_iff 43690 (by norm_num)

/-- C6 witness at a concrete 16-bit word. -/
theorem C6_zero_syndrome_stability_witness :
    (∀ j k, j ≤ k → k < 17 →
      matrix_mul (cyclic.traj 43690 j) cyclic.PAR = 0 →
      matrix_mul (cyclic.traj 43690 k) cyclic.PAR = 0)
    ∧ (∀ dat err, cyclic.decode 43690 = some (dat, err) → err = cyclic.totalWeight 43690) :=
  C6_zero_syndrome_stability 43690 (by norm_num)

/-! ### C7: zero syndromes characterize codewords -/

theorem cyc_nonzero_syn_bool :
    allBelow (fun v => (v == 0) || !(matrix_mul v cyclic.PAR == 0)) 256 = true := by decide

theorem std_nonzero_syn_bool :
    allBelow (fun v => (v == 0) || !(matrix_mul v hamming.standard.PAR == 0)) 16 = true := by
  decide

theorem short_nonzero_syn_bool :
    allBelow (fun v => (v == 0) || !(matrix_mul v hamming.shortened.PAR == 0)) 16 = true := by
  decide

/-- C7: for each code and every word within its significant width, the
syndrome is zero exactly when the word is the encoding of some in-width
data value; in particular every codeword has zero syndrome (the
generator and parity-check matrices are dual). -/
theorem C7_zero_syndrome_iff_codeword :
    (∀ w < 2 ^ 16, (matrix_mul w cyclic.PAR = 0 ↔ ∃ d < 256, cyclic.encode d = w))
    ∧ (∀ d < 256, matrix_mul (cyclic.encode d) cyclic.PAR = 0)
    ∧ (∀ w < 2 ^ 15,
        (matrix_mul w hamming.standard.PAR = 0 ↔ ∃ d < 2048, hamming.standard.encode d = w))
    ∧ (∀ d < 2048, matrix_mul (hamming.standard.encode d) hamming.standard.PAR = 0)
    ∧ (∀ w < 2 ^ 10,
        (matrix_mul w hamming.shortened.PAR = 0 ↔ ∃ d < 64, hamming.shortened.encode d = w))
    ∧ (∀ d < 64, matrix_mul (hamming.shortened.encode d) hamming.shortened.PAR = 0) := by
  refine ⟨fun w hw => ?_, fun d hd => cyclic.encode_syn_zero d hd,
    fun w hw => ?_, fun d hd => (hamming.std_encode_facts d hd).1,
    fun w hw => ?_, fun d hd => (hamming.short_encode_facts d hd).1⟩
  · obtain ⟨hd, hv8, hwe⟩ := coset_decomp w hw
    constructor
    · intro h0
      rw [hwe, hamming.syn_xor _ _ _ (cyclic.encode_syn_zero (w >>> 8) hd)
        (lt_trans (cyclic.encode_facts (w >>> 8) hd).1 (by norm_num))
        (lt_trans hv8 (by norm_num))] at h0
      have hb := allBelow_spec _ 256 cyc_nonzero_syn_bool _ hv8
      rw [Bool.or_eq_true] at hb
      rcases hb with h₁ | h₁
      · have hz : (w ^^^ cyclic.encode (w >>> 8)) = 0 := by simpa using h₁
        exact ⟨w >>> 8, hd, (Nat.xor_eq_zero.mp hz).symm⟩
      · exfalso
        simp only [Bool.not_eq_true', beq_eq_false_iff_ne, ne_eq] at h₁
        exact h₁ h0
    · rintro ⟨d₂, hd₂, henc⟩
      rw [← henc]
      exact cyclic.encode_syn_zero d₂ hd₂
  · have hd : w >>> 4 < 2048 := by
      rw [Nat.shiftRight_eq_div_pow]
      omega
    have hf := hamming.std_encode_facts (w >>> 4) hd
    have hv0 : (w ^^^ hamming.standard.encode (w >>> 4)) >>> 4 = 0 := by
      rw [xor_shiftRight, hf.2.1, Nat.xor_self]
    have hv16 : (w ^^^ hamming.standard.encode (w >>> 4)) < 16 := by
      rw [Nat.shiftRight_eq_div_pow] at hv0
      omega
    have hwe : w = hamming.standard.encode (w >>> 4)
        ^^^ (w ^^^ hamming.standard.encode (w >>> 4)) := by
      rw [Nat.xor_comm w, ← Nat.xor_assoc, Nat.xor_self, Nat.zero_xor]
    constructor
    · intro h0
      rw [hwe, hamming.syn_xor _ _ _ hf.1 (lt_trans hf.2.2 (by norm_num))
        (lt_trans hv16 (by norm_num))] at h0
      have hb := allBelow_spec _ 16 std_nonzero_syn_bool _ hv16
      rw [Bool.or_eq_true] at hb
      rcases hb with h₁ | h₁
      · have hz : (w ^^^ hamming.standard.encode (w >>> 4)) = 0 := by simpa using h₁
        exact ⟨w >>> 4, hd, (Nat.xor_eq_zero.mp hz).symm⟩
      · exfalso
        simp only [Bool.not_eq_true', beq_eq_false_iff_ne, ne_eq] at h₁
        exact h₁ h0
    · rintro ⟨d₂, hd₂, henc⟩
      rw [← henc]
      exact (hamming.std_encode_facts d₂ hd₂).1
  · have hd : w >>> 4 < 64 := by
      rw [Nat.shiftRight_eq_div_pow]
      omega
    have hf := hamming.short_encode_facts (w >>> 4) hd
    have hlt : hamming.shortened.encode (w >>> 4) >>> 4 < 256 := by
      have h₂ := hf.2.2
      rw [Nat.shiftRight_eq_div_pow]
      omega
    have hexact : hamming.shortened.encode (w >>> 4) >>> 4 = w >>> 4 := by
      have h₂ := hf.2.1
      rw [Nat.mod_eq_of_lt hlt] at h₂
      exact h₂
    have hv0 : (w ^^^ hamming.shortened.encode (w >>> 4)) >>> 4 = 0 := by
      rw [xor_shiftRight, hexact, Nat.xor_self]
    have hv16 : (w ^^^ hamming.shortened.encode (w >>> 4)) < 16 := by
      rw [Nat.shiftRight_eq_div_pow] at hv0
      omega
    have hwe : w = hamming.shortened.encode (w >>> 4)
        ^^^ (w ^^^ hamming.shortened.encode (w >>> 4)) := by
      rw [Nat.xor_comm w, ← Nat.xor_assoc, Nat.xor_self, Nat.zero_xor]
    constructor
    · intro h0
      rw [hwe, hamming.syn_xor _ _ _ hf.1 (lt_trans hf.2.2 (by norm_num))
        (lt_trans hv16 (by norm_num))] at h0
      have hb := allBelow_spec _ 16 short_nonzero_syn_bool _ hv16
      rw [Bool.or_eq_true] at hb
      rcases hb with h₁ | h₁
      · have hz : (w ^^^ hamming.shortened.encode (w >>> 4)) = 0 := by simpa using h₁
        exact ⟨w >>> 4, hd, (Nat.xor_eq_zero.mp hz).symm⟩
      · exfalso
        simp only [Bool.not_eq_true', beq_eq_false_iff_ne, ne_eq] at h₁
        exact h₁ h0
    · rintro ⟨d₂, hd₂, henc⟩
      rw [← henc]
      exact (hamming.short_encode_facts d₂ hd₂).1

/-! ### C8 and C9: width assertions on encode and decode -/

/-- C8: the Hamming encoders enforce their data-width preconditions by
assertion - over-width data panics (modelled `none`), in-width data
encodes normally, so no data is ever silently truncated; `cyclic::encode`
takes a full-width `u8`, so it has no violable precondition. -/
theorem C8_encode_asserts (data : Nat) :
    (data >>> 11 ≠ 0 → hamming.standard.encodeChecked data = none)
    ∧ (data >>> 11 = 0 →
        hamming.standard.encodeChecked data = some (hamming.standard.encode data))
    ∧ (data >>> 6 ≠ 0 → hamming.shortened.encodeChecked data = none)
    ∧ (data >>> 6 = 0 →
        hamming.shortened.encodeChecked data = some (hamming.shortened.encode data)) := by
  refine ⟨fun h => ?_, fun h => ?_, fun h => ?_, fun h => ?_⟩ <;>
    simp [hamming.standard.encodeChecked, hamming.shortened.encodeChecked, h]

/-- C9: the Hamming decoders likewise assert the received word's width -
an over-width word panics (modelled `none`) rather than returning a
decode failure, and an in-width word always returns normally (`some` of
the decode result, itself `some` or `none`). -/
theorem C9_decode_asserts (word : Nat) :
    (word >>> 15 ≠ 0 → hamming.standard.decodeChecked word = none)
    ∧ (word >>> 15 = 0 →
        hamming.standard.decodeChecked word = some (hamming.standard.decode word))
    ∧ (word >>> 10 ≠ 0 → hamming.shortened.decodeChecked word = none)
    ∧ (word >>> 10 = 0 →
        hamming.shortened.decodeChecked word = some (hamming.shortened.decode word)) := by
  refine ⟨fun h => ?_, fun h => ?_, fun h => ?_, fun h => ?_⟩ <;>
    simp [hamming.standard.decodeChecked, hamming.shortened.decodeChecked, h]

/-! ### C10: the cyclic rotation utility -/

/-- C10: `rotate_17` moves the least significant bit to bit position 16
while shifting the rest down (literally its defining expression), maps
zero to itself, and applying it seventeen times to any value with only
its low 17 bits set returns the original value. -/
theorem C10_rotate_17 :
    (∀ w, cyclic.rotate_17 w = w >>> 1 ||| (w &&& 1) <<< 16)
    ∧ cyclic.rotate_17 0 = 0
    ∧ (∀ w < 2 ^ 17, cyclic.rotIter 17 w = w) := by
  exact ⟨fun w => rfl, rfl, fun w hw => cyclic.rotIter_17_id w hw⟩

end P25
